import Mathlib

/-!
Verification of `src/scripts/format_test_output.py`, a line-oriented filter that
dims headers of empty test-file sections and word-wraps long status lines.

Strings are modelled as `List Char` (one code point per character, matching
Python's character-count semantics).  Input lines are newline-stripped by the
reading loop (`line.rstrip('\n')`), so driver-level lines never contain `'\n'`;
the status-line regex model below relies on that.  Widths are modelled as `Int`
where the Python code can produce a negative width (`TERM_WIDTH - indent_len`).
-/

set_option maxRecDepth 10000
/-- Strings of the Python program, as lists of characters. -/
abbrev Str := List Char

/-- Converts a Lean string literal to the character-list model. -/
def strL (s : String) : Str := s.data

/-- Characters treated as whitespace by Python's `str.split` / `str.strip` and by
the `\s` class of the `re` module: ASCII whitespace, the information-separator
range, and the Unicode space characters. -/
def pyIsSpace (c : Char) : Bool :=
  c == ' ' || c == '\t' || c == '\n' || c == '\r' || c == '\x0b' || c == '\x0c' ||
  (decide (28 ≤ c.toNat) && decide (c.toNat ≤ 31)) ||
  c.toNat == 133 || c.toNat == 160 || c.toNat == 5760 ||
  (decide (8192 ≤ c.toNat) && decide (c.toNat ≤ 8202)) ||
  c.toNat == 8232 || c.toNat == 8233 || c.toNat == 8239 || c.toNat == 8287 ||
  c.toNat == 12288

/-- Negation of `pyIsSpace`, the word-character test used when splitting. -/
def notSpace (c : Char) : Bool := !(pyIsSpace c)

/-- Python's `s.startswith(p)`: `p` is an initial segment of `s`. -/
def startsWithL (p s : Str) : Bool :=
  match p, s with
  | [], _ => true
  | _ :: _, [] => false
  | a :: as, b :: bs => a == b && startsWithL as bs

/-- Python's `needle in hay` substring test. -/
def containsSub (needle : Str) : Str → Bool
  | [] => startsWithL needle []
  | c :: rest => startsWithL needle (c :: rest) || containsSub needle rest

/-- Python's `s.lower()` (ASCII case mapping; all strings matched by the code
are ASCII). -/
def lowerStr (s : Str) : Str := s.map Char.toLower

/-- Python's `s.strip()`: removes whitespace from both ends. -/
def pyStrip (s : Str) : Str :=
  (((s.dropWhile pyIsSpace).reverse.dropWhile pyIsSpace).reverse)

/-- Accumulator worker for `pySplit`; `acc` holds the reversed current word. -/
def pySplitAux : Str → Str → List Str
  | [], acc => if acc.isEmpty then [] else [acc.reverse]
  | c :: cs, acc =>
    if pyIsSpace c then
      if acc.isEmpty then pySplitAux cs [] else acc.reverse :: pySplitAux cs []
    else pySplitAux cs (c :: acc)

/-- Python's `s.split()` with no arguments: maximal runs of non-whitespace
characters, with all whitespace discarded. -/
def pySplit (s : Str) : List Str := pySplitAux s []

/-- A word produced by `pySplit`: non-empty and free of whitespace. -/
def PyWord (w : Str) : Prop := w ≠ [] ∧ ∀ c ∈ w, pyIsSpace c = false

/-- A string consisting entirely of whitespace characters. -/
def AllWS (p : Str) : Prop := ∀ c ∈ p, pyIsSpace c = true

/-- Joins words with single separating spaces (no terminal space). -/
def joinWords : List Str → Str
  | [] => []
  | [w] => w
  | w :: v :: vs => w ++ ' ' :: joinWords (v :: vs)

/-- A list whose members are all `pySplit`-style words. -/
def IsWordList (vs : List Str) : Prop := ∀ w ∈ vs, PyWord w

/-- Loop state step for `wrap_text_with_indent` (the `for i, word in
enumerate(words)` loop, source lines 79-92): `acc` holds finalized lines, `cur`
the line under construction, `first` is Python's `i == 0`.  A word is appended
when the tentative line stays within `max_width`; otherwise the current line is
flushed (when not blank) and a fresh line `indentStr ++ word` is started. -/
def wrapLoop (indentStr : Str) (maxW : Int) : List Str → List Str → Str → Bool → List Str × Str
  | [], acc, cur, _ => (acc, cur)
  | w :: ws, acc, cur, first =>
    let test := if first then cur ++ w else cur ++ ' ' :: w
    if (test.length : Int) ≤ maxW then wrapLoop indentStr maxW ws acc test false
    else
      wrapLoop indentStr maxW ws
        (if (pyStrip cur).isEmpty then acc else acc ++ [cur]) (indentStr ++ w) false

/-- Model of `wrap_text_with_indent` (source lines 53-98).  The regex
`^(\s*)(.*)` always matches: group 1 is the maximal whitespace run and group 2
the rest of the text up to the first `'\n'` (Python's `.` does not cross a
newline).  `max_width` is an `Int` because the driver passes
`TERM_WIDTH - indent_len`, which can be negative in Python. -/
def wrap_text_with_indent (text : Str) (indent_len : Nat) (max_width : Int) : List Str :=
  if (text.length : Int) ≤ max_width then [text]
  else if (pySplit text).isEmpty then [text]
  else
    let initial_indent := text.takeWhile pyIsSpace
    let remaining := (text.dropWhile pyIsSpace).takeWhile (fun c => !(c == '\n'))
    let words := pySplit remaining
    let indentStr := List.replicate indent_len ' '
    let r := wrapLoop indentStr max_width words [] initial_indent true
    let ls := if (pyStrip r.2).isEmpty then r.1 else r.1 ++ [r.2]
    if ls.isEmpty then [text] else ls

/-- Structure of a finalized output line of the wrap loop: an all-whitespace
indent followed by words joined by single spaces; it fit within the width when
flushed unless it is a lone word on a fresh line. -/
def LineStruct (maxW : Int) (l : Str) : Prop :=
  ∃ p vs, AllWS p ∧ IsWordList vs ∧ vs ≠ [] ∧ l = p ++ joinWords vs ∧
    (((l.length : Int) ≤ maxW) ∨ vs.length = 1)

/-- Invariant of the line under construction in the wrap loop. -/
def CurInv (maxW : Int) (cur : Str) (first : Bool) : Prop :=
  ∃ p vs, AllWS p ∧ IsWordList vs ∧ cur = p ++ joinWords vs ∧
    (((cur.length : Int) ≤ maxW) ∨ vs.length ≤ 1) ∧
    (first = true → vs = []) ∧ (first = false → vs ≠ [])

/-- The loop call made by `wrap_text_with_indent` in its main branch. -/
def wrapCore (text : Str) (il : Nat) (mw : Int) : List Str × Str :=
  wrapLoop (List.replicate il ' ') mw
    (pySplit ((text.dropWhile pyIsSpace).takeWhile (fun c => !(c == '\n'))))
    [] (text.takeWhile pyIsSpace) true

/-- Finalization of the wrap loop result (source lines 94-98). -/
def wrapFinish (text : Str) (r : List Str × Str) : List Str :=
  if (if (pyStrip r.2).isEmpty then r.1 else r.1 ++ [r.2]).isEmpty then [text]
  else if (pyStrip r.2).isEmpty then r.1 else r.1 ++ [r.2]

/-- Substrings that mark a line as real test content (source lines 40-43). -/
def indicatorList : List Str :=
  [strL ("✓"), strL ("✗"), strL ("Success"), strL ("Failure"), strL ("passed"),
   strL ("failed"), strL ("it("), strL ("describe("), strL ("PASS"), strL ("FAIL"),
   strL ("Error"), strL ("pending")]

/-- A line skipped by the classifier: containing "initialized" (case-insensitive)
or blank after stripping (source line 32). -/
def isSkipLine (l : Str) : Bool :=
  containsSub (strL ("initialized")) (lowerStr l) || l.isEmpty

/-- A line containing one of the test-content indicators (source lines 40-43). -/
def isIndicatorLine (l : Str) : Bool :=
  indicatorList.any (fun ind => containsSub ind l)

/-- The stripped line at index `k` (`lines[k].strip()`); callers never index out
of range, so the default empty string is never used along real paths. -/
def stripAt (lines : List Str) (k : Nat) : Str := pyStrip (lines.getD k [])

/-- Scanning loop of `is_empty_test_file_section` (source lines 27-48); `steps`
counts the remaining indices of `range(start_idx, min(start_idx + 15, len(lines)))`. -/
def isEmptyGo (lines : List Str) (s : Nat) : Nat → Nat → Nat → Bool
  | _, found, 0 => found == 0
  | i, found, steps + 1 =>
    let line := stripAt lines i
    if isSkipLine line then isEmptyGo lines s (i + 1) found steps
    else if startsWithL (strL ("=")) line && decide (s < i) then found == 0
    else if isIndicatorLine line then false
    else isEmptyGo lines s (i + 1) (if line.isEmpty then found else found + 1) steps

/-- Model of `is_empty_test_file_section` (source lines 21-51). -/
def is_empty_test_file_section (lines : List Str) (start_idx : Nat) : Bool :=
  isEmptyGo lines start_idx start_idx 0
    (min (start_idx + 15) lines.length - start_idx)

/-- Number of positions in a window of `steps` indices from `i` whose stripped
line is counted as content (not skipped) by the scan. -/
def countContentGo (lines : List Str) : Nat → Nat → Nat
  | _, 0 => 0
  | i, steps + 1 =>
    (if isSkipLine (stripAt lines i) then 0 else 1) + countContentGo lines (i + 1) steps

/-- Content lines counted in the index interval `[i, j)`. -/
def countContent (lines : List Str) (i j : Nat) : Nat := countContentGo lines i (j - i)

/-- Modelled from the spec and claim C3's wording: a divider line is "a line of
repeated `=` characters, length ≥ 10". -/
def isDividerSpecLine (l : Str) : Bool :=
  decide (10 ≤ l.length) && l.all (fun c => c == '=')

/-- Modelled from the spec: the classifier as claim C3 describes it, identical
to `isEmptyGo` except that scanning stops only at a full divider (repeated `=`,
length ≥ 10) rather than at any line starting with `=`. -/
def isEmptySpecGo (lines : List Str) (s : Nat) : Nat → Nat → Nat → Bool
  | _, found, 0 => found == 0
  | i, found, steps + 1 =>
    let line := stripAt lines i
    if isSkipLine line then isEmptySpecGo lines s (i + 1) found steps
    else if isDividerSpecLine line && decide (s < i) then found == 0
    else if isIndicatorLine line then false
    else isEmptySpecGo lines s (i + 1) (if line.isEmpty then found else found + 1) steps

/-- Modelled from the spec: claim C3's version of the section classifier. -/
def isEmptySpecC3 (lines : List Str) (start_idx : Nat) : Bool :=
  isEmptySpecGo lines start_idx start_idx 0
    (min (start_idx + 15) lines.length - start_idx)

/-- ANSI gray escape `'\033[90m'` (source line 15). -/
def GRAY : Str := strL ("\x1b[90m")

/-- ANSI reset escape `'\033[0m'` (source line 16). -/
def RESET : Str := strL ("\x1b[0m")

/-- A line printed in gray: `f"{GRAY}{line}{RESET}"` (source lines 119-120). -/
def grayLine (l : Str) : Str := GRAY ++ l ++ RESET

/-- The divider-plus-header-plus-empty test of the driver (source lines
111-115): line `i` strips to something starting with ten `=` characters, line
`i + 1` exists and strips to something starting with "Testing:", and the
section from `i + 2` is classified empty. -/
def dimCond (lines : List Str) (i : Nat) : Bool :=
  startsWithL (strL ("==========")) (pyStrip (lines.getD i [])) &&
  decide (i + 1 < lines.length) &&
  startsWithL (strL ("Testing:")) (pyStrip (lines.getD (i + 1) [])) &&
  is_empty_test_file_section lines (i + 2)

/-- Matches `[0-9]+\)` at the front of `s`: a maximal ASCII digit run followed
by a closing parenthesis. -/
def matchDigits (s : Str) : Option (Str × Str) :=
  if (s.takeWhile Char.isDigit).isEmpty then none
  else
    match s.dropWhile Char.isDigit with
    | d :: rest =>
      if d == ')' then some (s.takeWhile Char.isDigit ++ [')'], rest) else none
    | [] => none

/-- Matches the status-marker alternation `(✓|✗|[0-9]+\)|•|\*)` at the front of
`s`, returning the marker and the remainder. -/
def matchMarker (s : Str) : Option (Str × Str) :=
  match s with
  | [] => none
  | c :: rest =>
    if c == '✓' then some ([c], rest)
    else if c == '✗' then some ([c], rest)
    else
      match matchDigits (c :: rest) with
      | some r => some r
      | none =>
        if c == '•' then some ([c], rest)
        else if c == '*' then some ([c], rest)
        else none

/-- Model of `re.match(r'^(\s*)(✓|✗|[0-9]+\)|•|\*)\s+(.*)$', line)` (source line
125) for newline-free lines (driver lines are newline-stripped, so `(.*)$`
captures everything after the separating whitespace): returns the leading
whitespace, the status marker, and the description. -/
def statusMatch (line : Str) : Option (Str × Str × Str) :=
  match matchMarker (line.dropWhile pyIsSpace) with
  | none => none
  | some (st, rest) =>
    if (rest.takeWhile pyIsSpace).isEmpty then none
    else some (line.takeWhile pyIsSpace, st, rest.dropWhile pyIsSpace)

/-- The reconstructed status line fits the terminal width:
`len(f"{indent}{status} {description}") <= TERM_WIDTH`. -/
def statusShort (termW : Nat) (l : Str) : Bool :=
  match statusMatch l with
  | some (ind, st, desc) => decide (ind.length + st.length + 1 + desc.length ≤ termW)
  | none => true

/-- Output block of the driver's wrap branch when it fires (source lines
124-153): the description is wrapped at `TERM_WIDTH - indent_len`, the first
wrapped line is emitted behind the original indent and marker, the remaining
wrapped lines are emitted as-is. -/
def statusBlock (termW : Nat) (line : Str) : Option (List Str) :=
  match statusMatch line with
  | some (ind, st, desc) =>
    if termW < ind.length + st.length + 1 + desc.length then
      some ((ind ++ st ++ ' ' ::
          (wrap_text_with_indent desc (ind.length + st.length + 1)
            ((termW : Int) - ((ind.length + st.length + 1 : Nat) : Int))).headD [])
        :: (wrap_text_with_indent desc (ind.length + st.length + 1)
            ((termW : Int) - ((ind.length + st.length + 1 : Nat) : Int))).tail)
    else none
  | none => none

/-- Main loop of `process_test_output` (source lines 106-157), fuelled: every
iteration consumes at least one input line, so `lines.length - i` iterations
always suffice. -/
def processGo (termW : Nat) (lines : List Str) : Nat → Nat → List Str
  | _, 0 => []
  | i, fuel + 1 =>
    if i < lines.length then
      if dimCond lines i then
        grayLine (lines.getD i []) :: grayLine (lines.getD (i + 1) []) ::
          processGo termW lines (i + 2) fuel
      else
        match statusBlock termW (lines.getD i []) with
        | some block => block ++ processGo termW lines (i + 1) fuel
        | none => lines.getD i [] :: processGo termW lines (i + 1) fuel
    else []

/-- The driver from cursor `i` to the end of the buffer. -/
def processFrom (termW : Nat) (lines : List Str) (i : Nat) : List Str :=
  processGo termW lines i (lines.length - i)

/-- Model of `process_test_output` (source lines 100-157): input is the list of
newline-stripped stdin lines, output the ordered stdout lines; `TERM_WIDTH` is
a parameter resolved once before the loop. -/
def process_test_output (termW : Nat) (lines : List Str) : List Str :=
  processFrom termW lines 0

/-- Modelled from the spec (§8, "Idempotence on already-short lines"): the
expected output when no status line needs wrapping — every input line emitted
unchanged except that the divider and header lines of sections classified empty
are wrapped in the gray/reset decoration. -/
def decorGo (lines : List Str) : Nat → Nat → List Str
  | _, 0 => []
  | i, fuel + 1 =>
    if i < lines.length then
      if dimCond lines i then
        grayLine (lines.getD i []) :: grayLine (lines.getD (i + 1) []) ::
          decorGo lines (i + 2) fuel
      else lines.getD i [] :: decorGo lines (i + 1) fuel
    else []

/-- Modelled from the spec: dim-decoration-only output, from cursor `i`. -/
def decorFrom (lines : List Str) (i : Nat) : List Str :=
  decorGo lines i (lines.length - i)

/-- Modelled from the spec: dim-decoration-only output of the whole buffer. -/
def decorateOnly (lines : List Str) : List Str := decorFrom lines 0

/-- Exit paths of the `__main__` wrapper (source lines 159-166): normal
completion of `process_test_output()`, `KeyboardInterrupt`, `BrokenPipeError`. -/
inductive ExitPath where
  | normal : ExitPath
  | interrupt : ExitPath
  | brokenPipe : ExitPath

/-- Exit code on each path (source lines 159-166): falling off the end of the
script exits 0, and both exception handlers call `sys.exit(0)`. -/
def mainExitCode : ExitPath → Nat
  | ExitPath.normal => 0
  | ExitPath.interrupt => 0
  | ExitPath.brokenPipe => 0

theorem pySplit_nil : pySplit [] = [] := rfl

theorem pySplit_cons_space {c : Char} (cs : Str) (h : pyIsSpace c = true) :
    pySplit (c :: cs) = pySplit cs := by
  simp [pySplit, pySplitAux, h, List.isEmpty]

theorem pySplitAux_acc_ne (cs : Str) : ∀ acc : Str, acc ≠ [] →
    pySplitAux cs acc =
      (acc.reverse ++ cs.takeWhile notSpace) :: pySplit (cs.dropWhile notSpace) := by
  induction cs with
  | nil =>
    intro acc hacc
    cases acc with
    | nil => exact absurd rfl hacc
    | cons a as => simp [pySplitAux, List.isEmpty, pySplit]
  | cons c cs ih =>
    intro acc hacc
    by_cases hc : pyIsSpace c = true
    · have hns : notSpace c = false := by simp [notSpace, hc]
      cases acc with
      | nil => exact absurd rfl hacc
      | cons a as =>
        simp only [pySplitAux, hc, if_pos, List.isEmpty, if_neg]
        simp only [List.takeWhile, List.dropWhile, hns, List.append_nil,
          Bool.false_eq_true, if_neg, if_false]
        have : pySplit (c :: cs) = pySplitAux cs [] := by
          simp [pySplit, pySplitAux, hc, List.isEmpty]
        rw [this]
    · have hc' : pyIsSpace c = false := by
        cases h : pyIsSpace c
        · rfl
        · exact absurd h hc
      have hns : notSpace c = true := by simp [notSpace, hc']
      simp only [pySplitAux, hc', Bool.false_eq_true, if_neg, if_false]
      rw [ih (c :: acc) (by simp)]
      simp [List.takeWhile, List.dropWhile, hns]

theorem pySplit_cons_nonspace {c : Char} (cs : Str) (h : pyIsSpace c = false) :
    pySplit (c :: cs) =
      (c :: cs.takeWhile notSpace) :: pySplit (cs.dropWhile notSpace) := by
  have : pySplit (c :: cs) = pySplitAux cs [c] := by
    simp [pySplit, pySplitAux, h]
  rw [this, pySplitAux_acc_ne cs [c] (by simp)]
  simp

theorem takeWhile_append_all {p : Char → Bool} :
    ∀ (a b : Str), (∀ x ∈ a, p x = true) →
      (a ++ b).takeWhile p = a ++ b.takeWhile p := by
  intro a
  induction a with
  | nil => intro b _; simp
  | cons x a ih =>
    intro b h
    have hx : p x = true := h x (by simp)
    simp only [List.cons_append, List.takeWhile, hx]
    rw [show (a.append b) = a ++ b from rfl, ih b (fun y hy => h y (by simp [hy]))]

theorem dropWhile_append_all {p : Char → Bool} :
    ∀ (a b : Str), (∀ x ∈ a, p x = true) →
      (a ++ b).dropWhile p = b.dropWhile p := by
  intro a
  induction a with
  | nil => intro b _; simp
  | cons x a ih =>
    intro b h
    have hx : p x = true := h x (by simp)
    simp only [List.cons_append, List.dropWhile, hx]
    exact ih b (fun y hy => h y (by simp [hy]))

theorem takeWhile_all {p : Char → Bool} {a : Str} (h : ∀ x ∈ a, p x = true) :
    a.takeWhile p = a := by
  have := takeWhile_append_all a [] h
  simpa using this

theorem dropWhile_all {p : Char → Bool} {a : Str} (h : ∀ x ∈ a, p x = true) :
    a.dropWhile p = [] := by
  have := dropWhile_append_all a [] h
  simpa using this

theorem dropWhile_head_false {p : Char → Bool} :
    ∀ {l : Str} {e : Char} {r : Str}, l.dropWhile p = e :: r → p e = false := by
  intro l
  induction l with
  | nil => intro e r h; simp [List.dropWhile] at h
  | cons x xs ih =>
    intro e r h
    cases hx : p x with
    | true =>
      simp only [List.dropWhile, hx] at h
      exact ih h
    | false =>
      simp only [List.dropWhile, hx] at h
      cases h
      exact hx

theorem dropWhile_cons_false {p : Char → Bool} {e : Char} {r : Str}
    (h : p e = false) : (e :: r).dropWhile p = e :: r := by
  simp [List.dropWhile, h]

theorem takeWhile_cons_false {p : Char → Bool} {e : Char} {r : Str}
    (h : p e = false) : (e :: r).takeWhile p = [] := by
  simp [List.takeWhile, h]

theorem length_dropWhile_le' {p : Char → Bool} :
    ∀ l : Str, (l.dropWhile p).length ≤ l.length := by
  intro l
  induction l with
  | nil => simp
  | cons x xs ih =>
    cases hx : p x with
    | true =>
      simp only [List.dropWhile, hx]
      exact Nat.le_trans ih (Nat.le_succ _)
    | false => simp [List.dropWhile, hx]

theorem mem_of_mem_dropWhile {p : Char → Bool} :
    ∀ {l : Str} {x : Char}, x ∈ l.dropWhile p → x ∈ l := by
  intro l
  induction l with
  | nil => intro x h; simp at h
  | cons y ys ih =>
    intro x h
    cases hy : p y with
    | true =>
      simp only [List.dropWhile, hy] at h
      exact List.mem_cons_of_mem _ (ih h)
    | false => simp only [List.dropWhile, hy] at h; exact h

theorem mem_of_mem_takeWhile {p : Char → Bool} :
    ∀ {l : Str} {x : Char}, x ∈ l.takeWhile p → x ∈ l := by
  intro l
  induction l with
  | nil => intro x h; simp at h
  | cons y ys ih =>
    intro x h
    cases hy : p y with
    | true =>
      simp only [List.takeWhile, hy] at h
      rcases List.mem_cons.1 h with h | h
      · simp [h]
      · exact List.mem_cons_of_mem _ (ih h)
    | false => simp [List.takeWhile, hy] at h

theorem split_ws_append {p : Str} (s : Str) (h : AllWS p) :
    pySplit (p ++ s) = pySplit s := by
  induction p with
  | nil => simp
  | cons c cs ih =>
    have hc : pyIsSpace c = true := h c (by simp)
    rw [List.cons_append, pySplit_cons_space _ hc]
    exact ih (fun x hx => h x (by simp [hx]))

theorem split_all_ws {s : Str} (h : AllWS s) : pySplit s = [] := by
  have := split_ws_append (p := s) [] h
  simpa using this

theorem split_word {w : Str} (h : PyWord w) : pySplit w = [w] := by
  obtain ⟨hne, hchars⟩ := h
  cases w with
  | nil => exact absurd rfl hne
  | cons c cs =>
    have hc : pyIsSpace c = false := hchars c (by simp)
    rw [pySplit_cons_nonspace cs hc]
    have hall : ∀ x ∈ cs, notSpace x = true := by
      intro x hx
      simp [notSpace, hchars x (by simp [hx])]
    rw [takeWhile_all hall, dropWhile_all hall]
    rfl

theorem split_append_space_aux :
    ∀ (n : Nat) (xs ys : Str), xs.length ≤ n →
      pySplit (xs ++ ' ' :: ys) = pySplit xs ++ pySplit ys := by
  intro n
  induction n with
  | zero =>
    intro xs ys h
    have hxs : xs = [] := List.length_eq_zero.1 (Nat.le_zero.1 h)
    subst hxs
    rw [List.nil_append, pySplit_cons_space _ (by decide)]
    simp [pySplit_nil]
  | succ n ih =>
    intro xs ys h
    cases xs with
    | nil =>
      rw [List.nil_append, pySplit_cons_space _ (by decide)]
      simp [pySplit_nil]
    | cons c cs =>
      simp only [List.length_cons, Nat.succ_le_succ_iff] at h
      cases hc : pyIsSpace c with
      | true =>
        rw [List.cons_append, pySplit_cons_space _ hc, pySplit_cons_space _ hc]
        exact ih cs ys h
      | false =>
        rw [List.cons_append, pySplit_cons_nonspace _ hc, pySplit_cons_nonspace _ hc]
        have hsplit : cs.takeWhile notSpace ++ cs.dropWhile notSpace = cs :=
          List.takeWhile_append_dropWhile notSpace cs
        have htall : ∀ x ∈ cs.takeWhile notSpace, notSpace x = true := by
          intro x hx; exact List.mem_takeWhile_imp hx
        cases hd : cs.dropWhile notSpace with
        | nil =>
          have hcs : cs.takeWhile notSpace = cs := by
            rw [hd] at hsplit; simpa using hsplit
          have hcsall : ∀ x ∈ cs, notSpace x = true := by
            intro x hx; rw [← hcs] at hx; exact htall x hx
          rw [takeWhile_append_all _ _ hcsall, dropWhile_append_all _ _ hcsall,
            takeWhile_cons_false (by decide), dropWhile_cons_false (by decide),
            pySplit_cons_space _ (by decide)]
          simp [pySplit_nil, hcs]
        | cons e d' =>
          have he : notSpace e = false := dropWhile_head_false hd
          have hcs : cs = cs.takeWhile notSpace ++ (e :: d') := by
            rw [← hd]; exact hsplit.symm
          have hlen : (e :: d').length ≤ n := by
            have h1 : (cs.dropWhile notSpace).length ≤ cs.length := length_dropWhile_le' cs
            rw [hd] at h1
            exact Nat.le_trans h1 h
          have h1 : (cs ++ ' ' :: ys).takeWhile notSpace = cs.takeWhile notSpace := by
            conv_lhs => rw [hcs]
            rw [List.append_assoc, takeWhile_append_all _ _ htall, List.cons_append,
              takeWhile_cons_false he]
            simp
          have h2 : (cs ++ ' ' :: ys).dropWhile notSpace = e :: (d' ++ ' ' :: ys) := by
            conv_lhs => rw [hcs]
            rw [List.append_assoc, dropWhile_append_all _ _ htall, List.cons_append,
              dropWhile_cons_false he]
          rw [h1, h2,
            show e :: (d' ++ ' ' :: ys) = (e :: d') ++ ' ' :: ys from rfl,
            ih (e :: d') ys hlen]
          simp

theorem split_append_space (xs ys : Str) :
    pySplit (xs ++ ' ' :: ys) = pySplit xs ++ pySplit ys :=
  split_append_space_aux xs.length xs ys (Nat.le_refl _)

theorem split_eq_nil_iff {s : Str} : pySplit s = [] ↔ AllWS s := by
  constructor
  · intro h
    induction s with
    | nil => intro c hc; simp at hc
    | cons c cs ih =>
      cases hc : pyIsSpace c with
      | true =>
        rw [pySplit_cons_space _ hc] at h
        intro x hx
        rcases List.mem_cons.1 hx with rfl | hx
        · exact hc
        · exact ih h x hx
      | false => rw [pySplit_cons_nonspace _ hc] at h; cases h
  · exact split_all_ws

theorem words_of_split_aux :
    ∀ (n : Nat) (s : Str), s.length ≤ n → ∀ w ∈ pySplit s, PyWord w := by
  intro n
  induction n with
  | zero =>
    intro s h w hw
    have hs : s = [] := List.length_eq_zero.1 (Nat.le_zero.1 h)
    subst hs
    simp [pySplit_nil] at hw
  | succ n ih =>
    intro s h w hw
    cases s with
    | nil => simp [pySplit_nil] at hw
    | cons c cs =>
      simp only [List.length_cons, Nat.succ_le_succ_iff] at h
      cases hc : pyIsSpace c with
      | true =>
        rw [pySplit_cons_space _ hc] at hw
        exact ih cs h w hw
      | false =>
        rw [pySplit_cons_nonspace _ hc] at hw
        rcases List.mem_cons.1 hw with rfl | hw
        · refine ⟨by simp, ?_⟩
          intro x hx
          rcases List.mem_cons.1 hx with rfl | hx
          · exact hc
          · have := List.mem_takeWhile_imp hx
            simpa [notSpace] using this
        · exact ih _ (Nat.le_trans (length_dropWhile_le' cs) h) w hw

theorem words_of_split {s : Str} : ∀ w ∈ pySplit s, PyWord w :=
  words_of_split_aux s.length s (Nat.le_refl _)

theorem joinWords_cons₂ (w v : Str) (vs : List Str) :
    joinWords (w :: v :: vs) = w ++ ' ' :: joinWords (v :: vs) := rfl

theorem joinWords_append_word :
    ∀ (vs : List Str) (w : Str), vs ≠ [] →
      joinWords (vs ++ [w]) = joinWords vs ++ ' ' :: w := by
  intro vs
  induction vs with
  | nil => intro w h; exact absurd rfl h
  | cons v vs ih =>
    intro w _
    cases vs with
    | nil => simp [joinWords]
    | cons v' vs' =>
      simp only [show (v :: v' :: vs') ++ [w] = v :: v' :: (vs' ++ [w]) from by simp,
        joinWords_cons₂]
      rw [show v' :: (vs' ++ [w]) = (v' :: vs') ++ [w] from by simp, ih w (by simp)]
      simp

theorem split_joinWords : ∀ (vs : List Str), IsWordList vs → pySplit (joinWords vs) = vs := by
  intro vs
  induction vs with
  | nil => intro _; simp [joinWords, pySplit_nil]
  | cons v vs ih =>
    intro h
    cases vs with
    | nil => simp only [joinWords]; exact split_word (h v (by simp))
    | cons v' vs' =>
      rw [joinWords_cons₂, split_append_space, split_word (h v (by simp)),
        ih (fun w hw => h w (by simp [hw]))]
      rfl

theorem dropWhile_append_end_false {p : Char → Bool} {c : Char} (h : p c = false) :
    ∀ a : Str, (a ++ [c]).dropWhile p = a.dropWhile p ++ [c] := by
  intro a
  induction a with
  | nil => simp [List.dropWhile, h]
  | cons x xs ih =>
    cases hx : p x with
    | true => simp only [List.cons_append, List.dropWhile, hx]; exact ih
    | false => simp [List.dropWhile, hx]

theorem strip_eq_nil_iff {s : Str} : pyStrip s = [] ↔ AllWS s := by
  unfold pyStrip
  constructor
  · intro h
    have h1 : (s.dropWhile pyIsSpace).reverse.dropWhile pyIsSpace = [] := by
      have := congrArg List.reverse h
      simpa using this
    have h2 : ∀ x ∈ (s.dropWhile pyIsSpace).reverse, pyIsSpace x = true := by
      rw [List.dropWhile_eq_nil_iff] at h1
      intro x hx
      exact h1 x hx
    have h3 : ∀ x ∈ s.dropWhile pyIsSpace, pyIsSpace x = true := by
      intro x hx
      exact h2 x (by simpa using hx)
    intro x hx
    rw [← List.takeWhile_append_dropWhile (p := pyIsSpace) (l := s)] at hx
    rcases List.mem_append.1 hx with hx | hx
    · exact List.mem_takeWhile_imp hx
    · exact h3 x hx
  · intro h
    rw [dropWhile_all h]
    simp

theorem strip_head {s : Str} {c : Char} {r : Str}
    (hc : pyIsSpace c = false) (h : s.dropWhile pyIsSpace = c :: r) :
    ∃ t, pyStrip s = c :: t := by
  unfold pyStrip
  rw [h]
  have : (c :: r).reverse = r.reverse ++ [c] := by simp
  rw [this, dropWhile_append_end_false hc]
  exact ⟨(List.dropWhile pyIsSpace r.reverse).reverse, by simp⟩

theorem joinWords_single (w : Str) : joinWords [w] = w := rfl

theorem joinWords_head_append (v : Str) (vs : List Str) :
    ∃ z, joinWords (v :: vs) = v ++ z := by
  cases vs with
  | nil => exact ⟨[], by simp [joinWords]⟩
  | cons v' vs' => exact ⟨' ' :: joinWords (v' :: vs'), rfl⟩

theorem pyWord_head {v : Str} (h : PyWord v) :
    ∃ c cs, v = c :: cs ∧ pyIsSpace c = false := by
  obtain ⟨hne, hch⟩ := h
  cases v with
  | nil => exact absurd rfl hne
  | cons c cs => exact ⟨c, cs, rfl, hch c (by simp)⟩

theorem split_of_struct {p : Str} {vs : List Str} (hp : AllWS p) (hvs : IsWordList vs) :
    pySplit (p ++ joinWords vs) = vs := by
  rw [split_ws_append _ hp, split_joinWords vs hvs]

theorem struct_not_allws {p : Str} {v : Str} {vs : List Str} (hv : PyWord v) :
    ¬ AllWS (p ++ joinWords (v :: vs)) := by
  intro hall
  obtain ⟨c, cs, hveq, hc⟩ := pyWord_head hv
  obtain ⟨z, hz⟩ := joinWords_head_append v vs
  have hcmem : c ∈ p ++ joinWords (v :: vs) := by
    rw [hz, hveq]
    exact List.mem_append.2 (Or.inr (List.mem_append.2 (Or.inl (by simp))))
  have := hall c hcmem
  rw [this] at hc
  cases hc

theorem strip_isEmpty_iff {s : Str} : (pyStrip s).isEmpty = true ↔ AllWS s := by
  rw [List.isEmpty_iff, strip_eq_nil_iff]

theorem wrapLoop_cons_first (indentStr : Str) (maxW : Int) (w : Str)
    (ws acc : List Str) (cur : Str) :
    wrapLoop indentStr maxW (w :: ws) acc cur true =
      if ((cur ++ w).length : Int) ≤ maxW then
        wrapLoop indentStr maxW ws acc (cur ++ w) false
      else
        wrapLoop indentStr maxW ws
          (if (pyStrip cur).isEmpty then acc else acc ++ [cur]) (indentStr ++ w) false := rfl

theorem wrapLoop_cons_rest (indentStr : Str) (maxW : Int) (w : Str)
    (ws acc : List Str) (cur : Str) :
    wrapLoop indentStr maxW (w :: ws) acc cur false =
      if ((cur ++ ' ' :: w).length : Int) ≤ maxW then
        wrapLoop indentStr maxW ws acc (cur ++ ' ' :: w) false
      else
        wrapLoop indentStr maxW ws
          (if (pyStrip cur).isEmpty then acc else acc ++ [cur]) (indentStr ++ w) false := rfl

theorem wrapLoop_master (indentStr : Str) (maxW : Int) (hind : AllWS indentStr) :
    ∀ (ws acc : List Str) (cur : Str) (first : Bool),
      IsWordList ws →
      (∀ l ∈ acc, LineStruct maxW l) →
      CurInv maxW cur first →
      (((wrapLoop indentStr maxW ws acc cur first).1.map pySplit).flatten
          ++ pySplit (wrapLoop indentStr maxW ws acc cur first).2
        = (acc.map pySplit).flatten ++ pySplit cur ++ ws) ∧
      (∀ l ∈ (wrapLoop indentStr maxW ws acc cur first).1, LineStruct maxW l) ∧
      CurInv maxW (wrapLoop indentStr maxW ws acc cur first).2 (first && ws.isEmpty) := by
  intro ws
  induction ws with
  | nil =>
    intro acc cur first _ hacc hcur
    refine ⟨by simp [wrapLoop], hacc, ?_⟩
    simpa [wrapLoop, List.isEmpty] using hcur
  | cons w ws' ih =>
    intro acc cur first hws hacc hcur
    have hw : PyWord w := hws w (by simp)
    have hws' : IsWordList ws' := fun v hv => hws v (by simp [hv])
    have hwone : IsWordList [w] := by
      intro v hv
      rw [List.mem_singleton.1 hv]
      exact hw
    obtain ⟨p, vs, hp, hvs, hcureq, hsize, hf1, hf0⟩ := hcur
    have hsplitcur : pySplit cur = vs := by rw [hcureq]; exact split_of_struct hp hvs
    have hsplitind : pySplit (indentStr ++ w) = [w] := by
      rw [split_ws_append _ hind, split_word hw]
    have hcurind : CurInv maxW (indentStr ++ w) false :=
      ⟨indentStr, [w], hind, hwone, by rw [joinWords_single], Or.inr (by simp),
        by simp, by simp⟩
    cases hfirst : first with
    | true =>
      have hvsnil : vs = [] := hf1 hfirst
      subst hvsnil
      have hcurp : cur = p := by simpa [joinWords] using hcureq
      have hcurws : AllWS cur := by rw [hcurp]; exact hp
      have hsplitcur0 : pySplit cur = [] := split_all_ws hcurws
      by_cases htest : (((cur ++ w).length : Int) ≤ maxW)
      · have hstep : wrapLoop indentStr maxW (w :: ws') acc cur true
            = wrapLoop indentStr maxW ws' acc (cur ++ w) false := by
          rw [wrapLoop_cons_first, if_pos htest]
        have hcur' : CurInv maxW (cur ++ w) false := by
          refine ⟨p, [w], hp, hwone, ?_, Or.inl htest, by simp, by simp⟩
          rw [hcurp, joinWords_single]
        have hres := ih acc (cur ++ w) false hws' hacc hcur'
        have hsplittest : pySplit (cur ++ w) = [w] := by
          rw [hcurp, split_ws_append _ hp, split_word hw]
        refine ⟨?_, ?_, ?_⟩
        · rw [hstep, hres.1, hsplittest, hsplitcur0]
          simp
        · rw [hstep]; exact hres.2.1
        · rw [hstep]
          simpa [List.isEmpty_cons] using hres.2.2
      · have hstrip : (pyStrip cur).isEmpty = true := strip_isEmpty_iff.2 hcurws
        have hstep : wrapLoop indentStr maxW (w :: ws') acc cur true
            = wrapLoop indentStr maxW ws' acc (indentStr ++ w) false := by
          rw [wrapLoop_cons_first, if_neg htest, if_pos hstrip]
        have hres := ih acc (indentStr ++ w) false hws' hacc hcurind
        refine ⟨?_, ?_, ?_⟩
        · rw [hstep, hres.1, hsplitind, hsplitcur0]
          simp
        · rw [hstep]; exact hres.2.1
        · rw [hstep]
          simpa [List.isEmpty_cons] using hres.2.2
    | false =>
      have hvsne : vs ≠ [] := hf0 hfirst
      by_cases htest : (((cur ++ ' ' :: w).length : Int) ≤ maxW)
      · have hstep : wrapLoop indentStr maxW (w :: ws') acc cur false
            = wrapLoop indentStr maxW ws' acc (cur ++ ' ' :: w) false := by
          rw [wrapLoop_cons_rest, if_pos htest]
        have heq : cur ++ ' ' :: w = p ++ joinWords (vs ++ [w]) := by
          rw [hcureq, joinWords_append_word vs w hvsne, List.append_assoc]
        have hcur' : CurInv maxW (cur ++ ' ' :: w) false := by
          refine ⟨p, vs ++ [w], hp, ?_, heq, Or.inl htest, by simp, by simp⟩
          intro v hv
          rcases List.mem_append.1 hv with hv | hv
          · exact hvs v hv
          · rw [List.mem_singleton.1 hv]
            exact hw
        have hres := ih acc (cur ++ ' ' :: w) false hws' hacc hcur'
        have hsplittest : pySplit (cur ++ ' ' :: w) = vs ++ [w] := by
          rw [split_append_space, hsplitcur, split_word hw]
        refine ⟨?_, ?_, ?_⟩
        · rw [hstep, hres.1, hsplittest, hsplitcur]
          simp
        · rw [hstep]; exact hres.2.1
        · rw [hstep]
          simpa [List.isEmpty_cons] using hres.2.2
      · obtain ⟨v, vs', hvscons⟩ : ∃ v vs', vs = v :: vs' := by
          cases vs with
          | nil => exact absurd rfl hvsne
          | cons v vs' => exact ⟨v, vs', rfl⟩
        have hvword : PyWord v := hvs v (by simp [hvscons])
        have hnotallws : ¬ AllWS cur := by
          rw [hcureq, hvscons]; exact struct_not_allws hvword
        have hstrip : (pyStrip cur).isEmpty = false := by
          cases hst : (pyStrip cur).isEmpty with
          | false => rfl
          | true => exact absurd (strip_isEmpty_iff.1 hst) hnotallws
        have hstep : wrapLoop indentStr maxW (w :: ws') acc cur false
            = wrapLoop indentStr maxW ws' (acc ++ [cur]) (indentStr ++ w) false := by
          rw [wrapLoop_cons_rest, if_neg htest, if_neg (by rw [hstrip]; exact Bool.false_ne_true)]
        have hline : LineStruct maxW cur := by
          refine ⟨p, vs, hp, hvs, hvsne, hcureq, ?_⟩
          cases hsize with
          | inl hsz => exact Or.inl hsz
          | inr hsz =>
            refine Or.inr ?_
            rw [hvscons] at hsz ⊢
            simp only [List.length_cons] at hsz ⊢
            omega
        have hacc' : ∀ l ∈ acc ++ [cur], LineStruct maxW l := by
          intro l hl
          rcases List.mem_append.1 hl with hl | hl
          · exact hacc l hl
          · rw [List.mem_singleton.1 hl]
            exact hline
        have hres := ih (acc ++ [cur]) (indentStr ++ w) false hws' hacc' hcurind
        refine ⟨?_, ?_, ?_⟩
        · rw [hstep, hres.1, hsplitind]
          simp [hsplitcur]
        · rw [hstep]; exact hres.2.1
        · rw [hstep]
          simpa [List.isEmpty_cons] using hres.2.2

theorem wrap_unfold (text : Str) (il : Nat) (mw : Int) :
    wrap_text_with_indent text il mw =
      if (text.length : Int) ≤ mw then [text]
      else if (pySplit text).isEmpty then [text]
      else wrapFinish text (wrapCore text il mw) := rfl

theorem allws_takeWhile (text : Str) : AllWS (text.takeWhile pyIsSpace) :=
  fun _ hc => List.mem_takeWhile_imp hc

theorem wordlist_nil : IsWordList ([] : List Str) := by
  intro w hw
  simp at hw

/-- Facts about the main branch of the wrapper: the produced value is
`acc ++ [cur]`, all lines are structured, and the words of the output are the
words of group 2 of the `^(\s*)(.*)` match. -/
theorem wrap_main_spec (text : Str) (il : Nat) (mw : Int)
    (h1 : ¬ ((text.length : Int) ≤ mw)) (h2 : (pySplit text).isEmpty = false) :
    wrap_text_with_indent text il mw = (wrapCore text il mw).1 ++ [(wrapCore text il mw).2] ∧
    (∀ l ∈ (wrapCore text il mw).1, LineStruct mw l) ∧
    CurInv mw (wrapCore text il mw).2 false ∧
    (((wrapCore text il mw).1.map pySplit).flatten ++ pySplit (wrapCore text il mw).2
      = pySplit ((text.dropWhile pyIsSpace).takeWhile (fun c => !(c == '\n')))) := by
  have hindws : AllWS (List.replicate il ' ') := by
    intro c hc
    rw [List.eq_of_mem_replicate hc]
    decide
  have hwords : IsWordList (pySplit ((text.dropWhile pyIsSpace).takeWhile (fun c => !(c == '\n')))) :=
    words_of_split
  have hcur0 : CurInv mw (text.takeWhile pyIsSpace) true := by
    refine ⟨text.takeWhile pyIsSpace, [], allws_takeWhile text, wordlist_nil,
      by simp [joinWords], Or.inr (by simp), fun _ => rfl, fun h => nomatch h⟩
  have hmaster := wrapLoop_master (List.replicate il ' ') mw hindws
    (pySplit ((text.dropWhile pyIsSpace).takeWhile (fun c => !(c == '\n'))))
    [] (text.takeWhile pyIsSpace) true hwords (by intro l hl; simp at hl) hcur0
  have hwne : pySplit ((text.dropWhile pyIsSpace).takeWhile (fun c => !(c == '\n'))) ≠ [] := by
    have hnotall : ¬ AllWS text := by
      intro hall
      rw [split_eq_nil_iff.2 hall] at h2
      simp at h2
    cases hdrop : text.dropWhile pyIsSpace with
    | nil =>
      exact absurd (fun c hc => by
        have := List.dropWhile_eq_nil_iff.1 hdrop c hc
        exact this) hnotall
    | cons c r =>
      have hc : pyIsSpace c = false := dropWhile_head_false hdrop
      have hcnl : (c == '\n') = false := by
        cases hbe : (c == '\n') with
        | false => rfl
        | true =>
          have : c = '\n' := by simpa using hbe
          rw [this] at hc
          simp [pyIsSpace] at hc
      have : (c :: r).takeWhile (fun c => !(c == '\n'))
          = c :: r.takeWhile (fun c => !(c == '\n')) := by
        simp [List.takeWhile, hcnl]
      rw [this, pySplit_cons_nonspace _ hc]
      simp
  have hflag : (pySplit ((text.dropWhile pyIsSpace).takeWhile (fun c => !(c == '\n')))).isEmpty = false := by
    cases hie : (pySplit ((text.dropWhile pyIsSpace).takeWhile (fun c => !(c == '\n')))).isEmpty with
    | false => rfl
    | true => exact absurd (List.isEmpty_iff.1 hie) hwne
  rw [Bool.true_and, hflag] at hmaster
  rw [show wrapLoop (List.replicate il ' ') mw
      (pySplit ((text.dropWhile pyIsSpace).takeWhile (fun c => !(c == '\n'))))
      [] (text.takeWhile pyIsSpace) true = wrapCore text il mw from rfl] at hmaster
  have hcurinv : CurInv mw (wrapCore text il mw).2 false := hmaster.2.2
  have hstripne : (pyStrip (wrapCore text il mw).2).isEmpty = false := by
    obtain ⟨p, vs, hp, hvs, heq, _, _, hf0⟩ := hcurinv
    have hvsne : vs ≠ [] := hf0 rfl
    obtain ⟨v, vs', hvscons⟩ : ∃ v vs', vs = v :: vs' := by
      cases vs with
      | nil => exact absurd rfl hvsne
      | cons v vs' => exact ⟨v, vs', rfl⟩
    have hnot : ¬ AllWS (wrapCore text il mw).2 := by
      rw [heq, hvscons]
      exact struct_not_allws (hvs v (by simp [hvscons]))
    cases hst : (pyStrip (wrapCore text il mw).2).isEmpty with
    | false => rfl
    | true => exact absurd (strip_isEmpty_iff.1 hst) hnot
  have heqwrap : wrap_text_with_indent text il mw
      = (wrapCore text il mw).1 ++ [(wrapCore text il mw).2] := by
    rw [wrap_unfold, if_neg h1, if_neg (by rw [h2]; exact Bool.false_ne_true)]
    unfold wrapFinish
    rw [hstripne]
    simp
  refine ⟨heqwrap, hmaster.2.1, hcurinv, ?_⟩
  have := hmaster.1
  simpa [split_all_ws (allws_takeWhile text)] using this

theorem bool_eq_false_of_ne_true {b : Bool} (h : ¬ b = true) : b = false := by
  cases b with
  | false => rfl
  | true => exact absurd rfl h

theorem wrap_ne_nil (text : Str) (il : Nat) (mw : Int) :
    wrap_text_with_indent text il mw ≠ [] := by
  by_cases h1 : (text.length : Int) ≤ mw
  · rw [wrap_unfold, if_pos h1]; simp
  · by_cases h2 : (pySplit text).isEmpty = true
    · rw [wrap_unfold, if_neg h1, if_pos h2]; simp
    · rw [(wrap_main_spec text il mw h1 (bool_eq_false_of_ne_true h2)).1]
      simp

theorem wrap_words_preserved (text : Str) (il : Nat) (mw : Int) (hnl : ('\n') ∉ text) :
    ((wrap_text_with_indent text il mw).map pySplit).flatten = pySplit text := by
  by_cases h1 : (text.length : Int) ≤ mw
  · rw [wrap_unfold, if_pos h1]; simp
  · by_cases h2 : (pySplit text).isEmpty = true
    · rw [wrap_unfold, if_neg h1, if_pos h2]; simp
    · have h2' := bool_eq_false_of_ne_true h2
      obtain ⟨heq, _, _, hwords⟩ := wrap_main_spec text il mw h1 h2'
      rw [heq]
      have hrem : (text.dropWhile pyIsSpace).takeWhile (fun c => !(c == '\n'))
          = text.dropWhile pyIsSpace := by
        apply takeWhile_all
        intro c hc
        have hcin : c ∈ text := mem_of_mem_dropWhile hc
        have hne : c ≠ '\n' := fun hh => hnl (hh ▸ hcin)
        simpa using hne
      have htext : pySplit (text.dropWhile pyIsSpace) = pySplit text := by
        conv_rhs => rw [← List.takeWhile_append_dropWhile (p := pyIsSpace) (l := text)]
        rw [split_ws_append _ (allws_takeWhile text)]
      rw [hrem, htext] at hwords
      rw [show ((wrapCore text il mw).1 ++ [(wrapCore text il mw).2]).map pySplit
          = (wrapCore text il mw).1.map pySplit ++ [pySplit (wrapCore text il mw).2] from by simp]
      rw [List.flatten_append]
      simpa using hwords

theorem wrap_line_widths (text : Str) (il : Nat) (mw : Int) :
    ∀ l ∈ wrap_text_with_indent text il mw,
      ((l.length : Int) ≤ mw) ∨ (pySplit l).length ≤ 1 := by
  intro l hl
  by_cases h1 : (text.length : Int) ≤ mw
  · rw [wrap_unfold, if_pos h1] at hl
    rw [List.mem_singleton.1 hl]
    exact Or.inl h1
  · by_cases h2 : (pySplit text).isEmpty = true
    · rw [wrap_unfold, if_neg h1, if_pos h2] at hl
      rw [List.mem_singleton.1 hl]
      right
      rw [List.isEmpty_iff.1 h2]
      simp
    · have h2' := bool_eq_false_of_ne_true h2
      obtain ⟨heq, hlines, hcur, _⟩ := wrap_main_spec text il mw h1 h2'
      rw [heq] at hl
      rcases List.mem_append.1 hl with hl | hl
      · obtain ⟨p, vs, hp, hvs, hne, hleq, hsz⟩ := hlines l hl
        rcases hsz with hsz | hsz
        · exact Or.inl hsz
        · right
          rw [hleq, split_of_struct hp hvs, hsz]
      · rw [List.mem_singleton.1 hl]
        obtain ⟨p, vs, hp, hvs, hceq, hsz, _, _⟩ := hcur
        rcases hsz with hsz | hsz
        · exact Or.inl hsz
        · right
          rw [hceq, split_of_struct hp hvs]
          exact hsz

theorem struct_spaced {p : Str} {vs : List Str} (hp : AllWS p) (hvs : IsWordList vs) :
    p ++ joinWords vs
      = (p ++ joinWords vs).takeWhile pyIsSpace ++ joinWords (pySplit (p ++ joinWords vs)) := by
  rw [split_of_struct hp hvs]
  cases vs with
  | nil =>
    rw [show joinWords ([] : List Str) = [] from rfl, List.append_nil, List.append_nil]
    exact (takeWhile_all hp).symm
  | cons v vs' =>
    obtain ⟨c, cs, hveq, hc⟩ := pyWord_head (hvs v (by simp))
    obtain ⟨z, hz⟩ := joinWords_head_append v vs'
    have hta : (p ++ joinWords (v :: vs')).takeWhile pyIsSpace = p := by
      rw [hz, hveq, takeWhile_append_all _ _ hp,
        show (c :: cs) ++ z = c :: (cs ++ z) from rfl, takeWhile_cons_false hc]
      simp
    rw [hta]

theorem wrap_lines_spaced (text : Str) (il : Nat) (mw : Int)
    (h1 : ¬ ((text.length : Int) ≤ mw)) :
    ∀ l ∈ wrap_text_with_indent text il mw,
      l = l.takeWhile pyIsSpace ++ joinWords (pySplit l) := by
  intro l hl
  by_cases h2 : (pySplit text).isEmpty = true
  · rw [wrap_unfold, if_neg h1, if_pos h2] at hl
    rw [List.mem_singleton.1 hl]
    have hall : AllWS text := split_eq_nil_iff.1 (List.isEmpty_iff.1 h2)
    rw [takeWhile_all hall, List.isEmpty_iff.1 h2,
      show joinWords ([] : List Str) = [] from rfl, List.append_nil]
  · have h2' := bool_eq_false_of_ne_true h2
    obtain ⟨heq, hlines, hcur, _⟩ := wrap_main_spec text il mw h1 h2'
    rw [heq] at hl
    rcases List.mem_append.1 hl with hl | hl
    · obtain ⟨p, vs, hp, hvs, _, hleq, _⟩ := hlines l hl
      rw [hleq]
      exact struct_spaced hp hvs
    · rw [List.mem_singleton.1 hl]
      obtain ⟨p, vs, hp, hvs, hceq, _, _, _⟩ := hcur
      rw [hceq]
      exact struct_spaced hp hvs

theorem isEmptyGo_at_stop (lines : List Str) (s i found : Nat)
    (hmin : i < min (s + 15) lines.length)
    (h4 : isSkipLine (stripAt lines i) = false)
    (h5 : startsWithL (strL ("=")) (stripAt lines i) = true)
    (hsi : s < i) :
    isEmptyGo lines s i found (min (s + 15) lines.length - i) = (found == 0) := by
  obtain ⟨t, ht⟩ : ∃ t, min (s + 15) lines.length - i = t + 1 :=
    ⟨min (s + 15) lines.length - i - 1, by omega⟩
  rw [ht]
  simp [isEmptyGo, h4, h5, hsi]

theorem isEmptyGo_step_skip (lines : List Str) (s i found : Nat)
    (hmin : i < min (s + 15) lines.length)
    (hskip : isSkipLine (stripAt lines i) = true) :
    isEmptyGo lines s i found (min (s + 15) lines.length - i)
      = isEmptyGo lines s (i + 1) found (min (s + 15) lines.length - (i + 1)) := by
  obtain ⟨t, ht⟩ : ∃ t, min (s + 15) lines.length - i = t + 1 :=
    ⟨min (s + 15) lines.length - i - 1, by omega⟩
  have ht' : min (s + 15) lines.length - (i + 1) = t := by omega
  rw [ht, ht']
  simp [isEmptyGo, hskip]

theorem isEmptyGo_step_count (lines : List Str) (s i found : Nat)
    (hmin : i < min (s + 15) lines.length)
    (hskip : isSkipLine (stripAt lines i) = false)
    (hne : startsWithL (strL ("=")) (stripAt lines i) = false)
    (hind : isIndicatorLine (stripAt lines i) = false) :
    isEmptyGo lines s i found (min (s + 15) lines.length - i)
      = isEmptyGo lines s (i + 1) (found + 1) (min (s + 15) lines.length - (i + 1)) := by
  obtain ⟨t, ht⟩ : ∃ t, min (s + 15) lines.length - i = t + 1 :=
    ⟨min (s + 15) lines.length - i - 1, by omega⟩
  have ht' : min (s + 15) lines.length - (i + 1) = t := by omega
  have hnonempty : (stripAt lines i).isEmpty = false := by
    cases hor : (stripAt lines i).isEmpty with
    | false => rfl
    | true =>
      rw [isSkipLine, hor, Bool.or_true] at hskip
      cases hskip
  rw [ht, ht']
  simp [isEmptyGo, hskip, hne, hind, hnonempty]

theorem countContent_self (lines : List Str) (i : Nat) : countContent lines i i = 0 := by
  simp [countContent, countContentGo]

theorem countContent_step (lines : List Str) (i j : Nat) (h : i < j) :
    countContent lines i j
      = (if isSkipLine (stripAt lines i) then 0 else 1) + countContent lines (i + 1) j := by
  obtain ⟨t, ht⟩ : ∃ t, j - i = t + 1 := ⟨j - i - 1, by omega⟩
  have ht' : j - (i + 1) = t := by omega
  unfold countContent
  rw [ht, ht']
  rfl

theorem isEmptyGo_stop (lines : List Str) (s j : Nat)
    (h2 : j < s + 15) (h3 : j < lines.length)
    (h4 : isSkipLine (stripAt lines j) = false)
    (h5 : startsWithL (strL ("=")) (stripAt lines j) = true)
    (hsj : s < j) :
    ∀ (n i found : Nat), j - i ≤ n → s ≤ i → i ≤ j →
      (∀ k, i ≤ k → k < j → isSkipLine (stripAt lines k) = true ∨
        (startsWithL (strL ("=")) (stripAt lines k) = false ∧
         isIndicatorLine (stripAt lines k) = false)) →
      isEmptyGo lines s i found (min (s + 15) lines.length - i)
        = ((found + countContent lines i j) == 0) := by
  have hminj : j < min (s + 15) lines.length := by omega
  intro n
  induction n with
  | zero =>
    intro i found hn hsi hij _
    have hij' : i = j := by omega
    subst hij'
    rw [isEmptyGo_at_stop lines s i found (by omega) h4 h5 hsj,
      countContent_self lines i]
    simp
  | succ n ihn =>
    intro i found hn hsi hij hpre
    by_cases hij' : i = j
    · subst hij'
      rw [isEmptyGo_at_stop lines s i found (by omega) h4 h5 hsj,
        countContent_self lines i]
      simp
    · have hilt : i < j := by omega
      have hmin : i < min (s + 15) lines.length := by omega
      have hpre' : ∀ k, i + 1 ≤ k → k < j → isSkipLine (stripAt lines k) = true ∨
          (startsWithL (strL ("=")) (stripAt lines k) = false ∧
           isIndicatorLine (stripAt lines k) = false) :=
        fun k hk1 hk2 => hpre k (by omega) hk2
      cases hsk : isSkipLine (stripAt lines i) with
      | true =>
        rw [isEmptyGo_step_skip lines s i found hmin hsk,
          ihn (i + 1) found (by omega) (by omega) (by omega) hpre',
          countContent_step lines i j hilt, hsk]
        simp
      | false =>
        have hpair : startsWithL (strL ("=")) (stripAt lines i) = false ∧
            isIndicatorLine (stripAt lines i) = false := by
          rcases hpre i (Nat.le_refl i) hilt with hskip | hpair
          · rw [hskip] at hsk; cases hsk
          · exact hpair
        rw [isEmptyGo_step_count lines s i found hmin hsk hpair.1 hpair.2,
          ihn (i + 1) (found + 1) (by omega) (by omega) (by omega) hpre',
          countContent_step lines i j hilt, hsk]
        simp [Nat.add_assoc]

theorem startsWithL_cons_ne {a b : Char} {as bs : Str} (h : (a == b) = false) :
    startsWithL (a :: as) (b :: bs) = false := by
  rw [startsWithL, h, Bool.false_and]

theorem contains_initialized_false {hay : Str} (h : ∀ c ∈ hay, c = '=') :
    containsSub (strL ("initialized")) hay = false := by
  induction hay with
  | nil => rfl
  | cons c rest ih =>
    have hc : c = '=' := h c (by simp)
    subst hc
    rw [containsSub]
    have h1 : startsWithL (strL ("initialized")) ('=' :: rest) = false := by
      rw [show strL ("initialized") = 'i' :: strL ("nitialized") from rfl]
      exact startsWithL_cons_ne (by decide)
    rw [h1, Bool.false_or]
    exact ih (fun c hc => h c (by simp [hc]))

theorem divider_not_skip {l : Str} (h : isDividerSpecLine l = true) :
    isSkipLine l = false ∧ startsWithL (strL ("=")) l = true := by
  rw [isDividerSpecLine, Bool.and_eq_true] at h
  obtain ⟨hlen, hall⟩ := h
  have hlen' : 10 ≤ l.length := of_decide_eq_true hlen
  have hallc : ∀ c ∈ l, c = '=' := by
    intro c hc
    have := List.all_eq_true.1 hall c hc
    simpa using this
  cases l with
  | nil => simp at hlen'
  | cons c rest =>
    have hc : c = '=' := hallc c (by simp)
    subst hc
    constructor
    · rw [isSkipLine]
      have h1 : containsSub (strL ("initialized")) (lowerStr ('=' :: rest)) = false := by
        apply contains_initialized_false
        intro c hc
        rw [lowerStr] at hc
        obtain ⟨c', hc', hcc⟩ := List.mem_map.1 hc
        have : c' = '=' := hallc c' hc'
        rw [this] at hcc
        rw [← hcc]
        rfl
      rw [h1]
      rfl
    · rw [show strL ("=") = ['='] from rfl, startsWithL, startsWithL]
      simp

theorem countContentGo_all_skip (lines : List Str) :
    ∀ (m i : Nat), (∀ k, i ≤ k → k < i + m → isSkipLine (stripAt lines k) = true) →
      countContentGo lines i m = 0 := by
  intro m
  induction m with
  | zero => intro i _; rfl
  | succ m ih =>
    intro i h
    rw [countContentGo, h i (Nat.le_refl i) (by omega),
      ih (i + 1) (fun k hk1 hk2 => h k (by omega) (by omega))]
    simp

theorem processGo_fuel (termW : Nat) (lines : List Str) :
    ∀ (f g i : Nat), lines.length - i ≤ f → lines.length - i ≤ g →
      processGo termW lines i f = processGo termW lines i g := by
  intro f
  induction f with
  | zero =>
    intro g i hf hg
    have hi : ¬ i < lines.length := by omega
    cases g with
    | zero => rfl
    | succ g => simp [processGo, hi]
  | succ f ihf =>
    intro g i hf hg
    cases g with
    | zero =>
      have hi : ¬ i < lines.length := by omega
      simp [processGo, hi]
    | succ g =>
      by_cases hi : i < lines.length
      · by_cases hd : dimCond lines i = true
        · simp only [processGo, if_pos hi, if_pos hd]
          rw [ihf g (i + 2) (by omega) (by omega)]
        · simp only [processGo, if_pos hi, if_neg hd]
          cases hb : statusBlock termW (lines.getD i []) with
          | some block =>
            simp only [hb]
            rw [ihf g (i + 1) (by omega) (by omega)]
          | none =>
            simp only [hb]
            rw [ihf g (i + 1) (by omega) (by omega)]
      · simp [processGo, hi]

theorem processFrom_stop (termW : Nat) (lines : List Str) (i : Nat)
    (h : ¬ i < lines.length) : processFrom termW lines i = [] := by
  unfold processFrom
  have hz : lines.length - i = 0 := by omega
  rw [hz]
  rfl

theorem processFrom_dim (termW : Nat) (lines : List Str) (i : Nat)
    (h : i < lines.length) (hd : dimCond lines i = true) :
    processFrom termW lines i
      = grayLine (lines.getD i []) :: grayLine (lines.getD (i + 1) []) ::
          processFrom termW lines (i + 2) := by
  unfold processFrom
  obtain ⟨f, hf⟩ : ∃ f, lines.length - i = f + 1 := ⟨lines.length - i - 1, by omega⟩
  rw [hf]
  simp only [processGo, if_pos h, if_pos hd]
  rw [processGo_fuel termW lines f (lines.length - (i + 2)) (i + 2) (by omega) (by omega)]

theorem processFrom_wrap (termW : Nat) (lines : List Str) (i : Nat) (block : List Str)
    (h : i < lines.length) (hd : dimCond lines i = false)
    (hb : statusBlock termW (lines.getD i []) = some block) :
    processFrom termW lines i = block ++ processFrom termW lines (i + 1) := by
  unfold processFrom
  obtain ⟨f, hf⟩ : ∃ f, lines.length - i = f + 1 := ⟨lines.length - i - 1, by omega⟩
  rw [hf]
  have hd' : ¬ dimCond lines i = true := by rw [hd]; exact Bool.false_ne_true
  simp only [processGo, if_pos h, if_neg hd', hb]
  rw [processGo_fuel termW lines f (lines.length - (i + 1)) (i + 1) (by omega) (by omega)]

theorem processFrom_plain (termW : Nat) (lines : List Str) (i : Nat)
    (h : i < lines.length) (hd : dimCond lines i = false)
    (hb : statusBlock termW (lines.getD i []) = none) :
    processFrom termW lines i = lines.getD i [] :: processFrom termW lines (i + 1) := by
  unfold processFrom
  obtain ⟨f, hf⟩ : ∃ f, lines.length - i = f + 1 := ⟨lines.length - i - 1, by omega⟩
  rw [hf]
  have hd' : ¬ dimCond lines i = true := by rw [hd]; exact Bool.false_ne_true
  simp only [processGo, if_pos h, if_neg hd', hb]
  rw [processGo_fuel termW lines f (lines.length - (i + 1)) (i + 1) (by omega) (by omega)]

theorem decorGo_fuel (lines : List Str) :
    ∀ (f g i : Nat), lines.length - i ≤ f → lines.length - i ≤ g →
      decorGo lines i f = decorGo lines i g := by
  intro f
  induction f with
  | zero =>
    intro g i hf hg
    have hi : ¬ i < lines.length := by omega
    cases g with
    | zero => rfl
    | succ g => simp [decorGo, hi]
  | succ f ihf =>
    intro g i hf hg
    cases g with
    | zero =>
      have hi : ¬ i < lines.length := by omega
      simp [decorGo, hi]
    | succ g =>
      by_cases hi : i < lines.length
      · by_cases hd : dimCond lines i = true
        · simp only [decorGo, if_pos hi, if_pos hd]
          rw [ihf g (i + 2) (by omega) (by omega)]
        · simp only [decorGo, if_pos hi, if_neg hd]
          rw [ihf g (i + 1) (by omega) (by omega)]
      · simp [decorGo, hi]

theorem decorFrom_stop (lines : List Str) (i : Nat)
    (h : ¬ i < lines.length) : decorFrom lines i = [] := by
  unfold decorFrom
  have hz : lines.length - i = 0 := by omega
  rw [hz]
  rfl

theorem decorFrom_dim (lines : List Str) (i : Nat)
    (h : i < lines.length) (hd : dimCond lines i = true) :
    decorFrom lines i
      = grayLine (lines.getD i []) :: grayLine (lines.getD (i + 1) []) ::
          decorFrom lines (i + 2) := by
  unfold decorFrom
  obtain ⟨f, hf⟩ : ∃ f, lines.length - i = f + 1 := ⟨lines.length - i - 1, by omega⟩
  rw [hf]
  simp only [decorGo, if_pos h, if_pos hd]
  rw [decorGo_fuel lines f (lines.length - (i + 2)) (i + 2) (by omega) (by omega)]

theorem decorFrom_plain (lines : List Str) (i : Nat)
    (h : i < lines.length) (hd : dimCond lines i = false) :
    decorFrom lines i = lines.getD i [] :: decorFrom lines (i + 1) := by
  unfold decorFrom
  obtain ⟨f, hf⟩ : ∃ f, lines.length - i = f + 1 := ⟨lines.length - i - 1, by omega⟩
  rw [hf]
  have hd' : ¬ dimCond lines i = true := by rw [hd]; exact Bool.false_ne_true
  simp only [decorGo, if_pos h, if_neg hd']
  rw [decorGo_fuel lines f (lines.length - (i + 1)) (i + 1) (by omega) (by omega)]

theorem matchMarker_none_at_eq (r : Str) : matchMarker ('=' :: r) = none := by
  rw [matchMarker, if_neg (by decide), if_neg (by decide)]
  have hd : matchDigits ('=' :: r) = none := by
    have ht : ('=' :: r).takeWhile Char.isDigit = [] := takeWhile_cons_false (by decide)
    rw [matchDigits, ht]
    simp
  rw [hd]
  simp [show ('=' == '•') = false from by decide, show ('=' == '*') = false from by decide]

theorem matchDigits_rest_sub {s ds rest : Str} (h : matchDigits s = some (ds, rest)) :
    ∀ x ∈ rest, x ∈ s := by
  rw [matchDigits] at h
  by_cases he : (s.takeWhile Char.isDigit).isEmpty = true
  · rw [if_pos he] at h
    cases h
  · rw [if_neg he] at h
    cases hdw : s.dropWhile Char.isDigit with
    | nil =>
      rw [hdw] at h
      simp at h
    | cons d dr =>
      rw [hdw] at h
      by_cases hdp : (d == ')') = true
      · simp only [hdp, if_true, Option.some.injEq, Prod.mk.injEq] at h
        obtain ⟨hds, hrest⟩ := h
        intro x hx
        rw [← hrest] at hx
        have hx' : x ∈ s.dropWhile Char.isDigit := by
          rw [hdw]
          exact List.mem_cons_of_mem _ hx
        exact mem_of_mem_dropWhile hx'
      · simp [hdp] at h

theorem matchMarker_rest_sub {s st rest : Str} (h : matchMarker s = some (st, rest)) :
    ∀ x ∈ rest, x ∈ s := by
  cases s with
  | nil => cases h
  | cons c r =>
    rw [matchMarker] at h
    by_cases h1 : (c == '✓') = true
    · simp only [h1, if_true, Option.some.injEq, Prod.mk.injEq] at h
      obtain ⟨_, hrest⟩ := h
      rw [← hrest]
      intro x hx
      exact List.mem_cons_of_mem _ hx
    · rw [if_neg h1] at h
      by_cases h2 : (c == '✗') = true
      · simp only [h2, if_true, Option.some.injEq, Prod.mk.injEq] at h
        obtain ⟨_, hrest⟩ := h
        rw [← hrest]
        intro x hx
        exact List.mem_cons_of_mem _ hx
      · rw [if_neg h2] at h
        cases hd : matchDigits (c :: r) with
        | some pr =>
          obtain ⟨ds, rest'⟩ := pr
          rw [hd] at h
          simp only [Option.some.injEq, Prod.mk.injEq] at h
          obtain ⟨hds, hrest⟩ := h
          rw [← hrest]
          exact matchDigits_rest_sub hd
        | none =>
          rw [hd] at h
          by_cases h3 : (c == '•') = true
          · simp only [h3, if_true, Option.some.injEq, Prod.mk.injEq] at h
            obtain ⟨_, hrest⟩ := h
            rw [← hrest]
            intro x hx
            exact List.mem_cons_of_mem _ hx
          · rw [if_neg h3] at h
            by_cases h4 : (c == '*') = true
            · simp only [h4, if_true, Option.some.injEq, Prod.mk.injEq] at h
              obtain ⟨_, hrest⟩ := h
              rw [← hrest]
              intro x hx
              exact List.mem_cons_of_mem _ hx
            · rw [if_neg h4] at h
              cases h

theorem statusMatch_elim {line ind st desc : Str}
    (h : statusMatch line = some (ind, st, desc)) :
    ∃ rest, matchMarker (line.dropWhile pyIsSpace) = some (st, rest) ∧
      ind = line.takeWhile pyIsSpace ∧
      (rest.takeWhile pyIsSpace).isEmpty = false ∧
      desc = rest.dropWhile pyIsSpace := by
  rw [statusMatch] at h
  cases hm : matchMarker (line.dropWhile pyIsSpace) with
  | none =>
    rw [hm] at h
    simp at h
  | some pr =>
    obtain ⟨st', rest⟩ := pr
    rw [hm] at h
    by_cases he : (rest.takeWhile pyIsSpace).isEmpty = true
    · simp [he] at h
    · simp only [he, Bool.false_eq_true, if_false, if_neg, Option.some.injEq,
        Prod.mk.injEq] at h
      obtain ⟨h1, h2, h3⟩ := h
      exact ⟨rest, by rw [h2], h1.symm, bool_eq_false_of_ne_true he, h3.symm⟩

theorem statusMatch_desc_sub {line ind st desc : Str}
    (h : statusMatch line = some (ind, st, desc)) :
    ∀ c ∈ desc, c ∈ line := by
  obtain ⟨rest, hm, _, _, hdesc⟩ := statusMatch_elim h
  intro c hc
  rw [hdesc] at hc
  have h1 : c ∈ rest := mem_of_mem_dropWhile hc
  have h2 : c ∈ line.dropWhile pyIsSpace := matchMarker_rest_sub hm c h1
  exact mem_of_mem_dropWhile h2

theorem statusMatch_strip_head {line ind st desc : Str}
    (h : statusMatch line = some (ind, st, desc)) :
    ∃ c t, pyStrip line = c :: t ∧ ('=' == c) = false := by
  obtain ⟨rest, hm, _, _, _⟩ := statusMatch_elim h
  cases hdrop : line.dropWhile pyIsSpace with
  | nil =>
    rw [hdrop] at hm
    cases hm
  | cons c r =>
    have hc : pyIsSpace c = false := dropWhile_head_false hdrop
    have hcne : c ≠ '=' := by
      intro hcc
      rw [hdrop, hcc, matchMarker_none_at_eq] at hm
      cases hm
    obtain ⟨t, ht⟩ := strip_head hc hdrop
    refine ⟨c, t, ht, ?_⟩
    cases hbe : ('=' == c) with
    | false => rfl
    | true => exact absurd (eq_of_beq hbe).symm hcne

theorem dimCond_false_of_statusMatch {lines : List Str} {i : Nat}
    {ind st desc : Str}
    (h : statusMatch (lines.getD i []) = some (ind, st, desc)) :
    dimCond lines i = false := by
  obtain ⟨c, t, hstrip, hne⟩ := statusMatch_strip_head h
  rw [dimCond, hstrip,
    show strL ("==========") = '=' :: strL ("=========") from rfl,
    startsWithL_cons_ne hne]
  simp

theorem statusBlock_none_of_short {termW : Nat} {l : Str}
    (h : statusShort termW l = true) : statusBlock termW l = none := by
  cases hm : statusMatch l with
  | none => simp [statusBlock, hm]
  | some t =>
    obtain ⟨ind, st, desc⟩ := t
    have hh := h
    simp only [statusShort, hm] at hh
    have hle : ind.length + st.length + 1 + desc.length ≤ termW := of_decide_eq_true hh
    simp only [statusBlock, hm]
    rw [if_neg (by omega)]

theorem statusBlock_of_match {termW : Nat} {l ind st desc : Str}
    (hm : statusMatch l = some (ind, st, desc))
    (hlt : termW < ind.length + st.length + 1 + desc.length) :
    statusBlock termW l =
      some ((ind ++ st ++ ' ' ::
          (wrap_text_with_indent desc (ind.length + st.length + 1)
            ((termW : Int) - ((ind.length + st.length + 1 : Nat) : Int))).headD [])
        :: (wrap_text_with_indent desc (ind.length + st.length + 1)
            ((termW : Int) - ((ind.length + st.length + 1 : Nat) : Int))).tail) := by
  simp only [statusBlock, hm]
  rw [if_pos hlt]

theorem statusBlock_ne_nil {termW : Nat} {l : Str} {b : List Str}
    (h : statusBlock termW l = some b) : b ≠ [] := by
  cases hm : statusMatch l with
  | none => simp [statusBlock, hm] at h
  | some t =>
    obtain ⟨ind, st, desc⟩ := t
    simp only [statusBlock, hm] at h
    by_cases hlt : termW < ind.length + st.length + 1 + desc.length
    · rw [if_pos hlt] at h
      simp only [Option.some.injEq] at h
      rw [← h]
      simp
    · rw [if_neg hlt] at h
      cases h

theorem getD_mem : ∀ (lines : List Str) (i : Nat), i < lines.length →
    lines.getD i [] ∈ lines := by
  intro lines
  induction lines with
  | nil => intro i h; simp at h
  | cons l ls ih =>
    intro i h
    cases i with
    | zero => simp [List.getD]
    | succ i =>
      have hmem := ih i (by simpa using h)
      rw [List.getD_cons_succ]
      exact List.mem_cons_of_mem _ hmem

theorem processFrom_eq_decorFrom (termW : Nat) (lines : List Str)
    (h : ∀ l ∈ lines, statusShort termW l = true) :
    ∀ (n i : Nat), lines.length - i ≤ n → processFrom termW lines i = decorFrom lines i := by
  intro n
  induction n with
  | zero =>
    intro i hn
    rw [processFrom_stop _ _ _ (by omega), decorFrom_stop _ _ (by omega)]
  | succ n ih =>
    intro i hn
    by_cases hi : i < lines.length
    · by_cases hd : dimCond lines i = true
      · rw [processFrom_dim _ _ _ hi hd, decorFrom_dim _ _ hi hd, ih (i + 2) (by omega)]
      · have hd' := bool_eq_false_of_ne_true hd
        have hb := statusBlock_none_of_short (h _ (getD_mem lines i hi))
        rw [processFrom_plain _ _ _ hi hd' hb, decorFrom_plain _ _ hi hd',
          ih (i + 1) (by omega)]
    · rw [processFrom_stop _ _ _ hi, decorFrom_stop _ _ hi]

theorem processFrom_length_ge (termW : Nat) (lines : List Str) :
    ∀ (n i : Nat), lines.length - i ≤ n →
      lines.length - i ≤ (processFrom termW lines i).length := by
  intro n
  induction n with
  | zero =>
    intro i hn
    exact Nat.le_trans hn (Nat.zero_le _)
  | succ n ih =>
    intro i hn
    by_cases hi : i < lines.length
    · by_cases hd : dimCond lines i = true
      · rw [processFrom_dim _ _ _ hi hd]
        have := ih (i + 2) (by omega)
        simp only [List.length_cons]
        omega
      · have hd' := bool_eq_false_of_ne_true hd
        cases hb : statusBlock termW (lines.getD i []) with
        | some block =>
          rw [processFrom_wrap _ _ _ _ hi hd' hb]
          have hbl : 0 < block.length := List.length_pos.2 (statusBlock_ne_nil hb)
          have := ih (i + 1) (by omega)
          rw [List.length_append]
          omega
        | none =>
          rw [processFrom_plain _ _ _ hi hd' hb]
          have := ih (i + 1) (by omega)
          simp only [List.length_cons]
          omega
    · rw [processFrom_stop _ _ _ hi]
      simp
      omega

theorem processFrom_covers (termW : Nat) (lines : List Str) :
    ∀ (n c : Nat), lines.length - c ≤ n → ∀ i, c ≤ i → i < lines.length →
      (lines.getD i [] ∈ processFrom termW lines c ∨
       grayLine (lines.getD i []) ∈ processFrom termW lines c ∨
       (∃ block, statusBlock termW (lines.getD i []) = some block ∧
         ∀ x ∈ block, x ∈ processFrom termW lines c)) := by
  intro n
  induction n with
  | zero =>
    intro c hn i hci hi
    exact absurd hi (by omega)
  | succ n ih =>
    intro c hn i hci hi
    by_cases hc : c < lines.length
    · by_cases hd : dimCond lines c = true
      · rw [processFrom_dim _ _ _ hc hd]
        by_cases hic : i = c
        · subst hic
          right; left
          exact List.mem_cons_self _ _
        · by_cases hic1 : i = c + 1
          · subst hic1
            right; left
            exact List.mem_cons_of_mem _ (List.mem_cons_self _ _)
          · rcases ih (c + 2) (by omega) i (by omega) hi with h1 | h1 | ⟨block, hb, hball⟩
            · left
              exact List.mem_cons_of_mem _ (List.mem_cons_of_mem _ h1)
            · right; left
              exact List.mem_cons_of_mem _ (List.mem_cons_of_mem _ h1)
            · right; right
              exact ⟨block, hb, fun x hx =>
                List.mem_cons_of_mem _ (List.mem_cons_of_mem _ (hball x hx))⟩
      · have hd' := bool_eq_false_of_ne_true hd
        cases hb : statusBlock termW (lines.getD c []) with
        | some block =>
          rw [processFrom_wrap _ _ _ _ hc hd' hb]
          by_cases hic : i = c
          · subst hic
            right; right
            exact ⟨block, hb, fun x hx => List.mem_append.2 (Or.inl hx)⟩
          · rcases ih (c + 1) (by omega) i (by omega) hi with h1 | h1 | ⟨bl, hbb, hball⟩
            · left
              exact List.mem_append.2 (Or.inr h1)
            · right; left
              exact List.mem_append.2 (Or.inr h1)
            · right; right
              exact ⟨bl, hbb, fun x hx => List.mem_append.2 (Or.inr (hball x hx))⟩
        | none =>
          rw [processFrom_plain _ _ _ hc hd' hb]
          by_cases hic : i = c
          · subst hic
            left
            exact List.mem_cons_self _ _
          · rcases ih (c + 1) (by omega) i (by omega) hi with h1 | h1 | ⟨bl, hbb, hball⟩
            · left
              exact List.mem_cons_of_mem _ h1
            · right; left
              exact List.mem_cons_of_mem _ h1
            · right; right
              exact ⟨bl, hbb, fun x hx => List.mem_cons_of_mem _ (hball x hx)⟩
    · exact absurd hi (by omega)

/-- C1: for a status line that the driver wraps (the line matches the status
pattern, its reconstructed length exceeds the terminal width, and — like every
line read from stdin — it contains no newline), concatenating the words of all
lines produced by `wrap_text_with_indent`, in order, reconstructs exactly the
whitespace-separated word sequence of the original description: no word is
dropped, duplicated, or reordered. -/
theorem c1_wrap_preserves_words (termW : Nat) (lines : List Str) (i : Nat)
    (ind st desc : Str)
    (hnl : ('\n') ∉ lines.getD i [])
    (hm : statusMatch (lines.getD i []) = some (ind, st, desc))
    (_hlen : termW < ind.length + st.length + 1 + desc.length) :
    ((wrap_text_with_indent desc (ind.length + st.length + 1)
        ((termW : Int) - ((ind.length + st.length + 1 : Nat) : Int))).map pySplit).flatten
      = pySplit desc := by
  have hdnl : ('\n') ∉ desc := fun hc => hnl (statusMatch_desc_sub hm '\n' hc)
  exact wrap_words_preserved desc _ _ hdnl

/-- Witness for C1 at a concrete wrapped status line. -/
theorem c1_witness :
    ((wrap_text_with_indent (strL ("aa bb"))
        ((([] : Str)).length + (strL ("✓")).length + 1)
        ((3 : Int) - ((((([] : Str)).length + (strL ("✓")).length + 1 : Nat)) : Int))).map
        pySplit).flatten
      = pySplit (strL ("aa bb")) :=
  c1_wrap_preserves_words 3 [strL ("✓ aa bb")] 0 ([] : Str) (strL ("✓")) (strL ("aa bb"))
    (by decide) (by decide) (by decide)

/-- C2 as stated is false: with text "aaaa bbbb", indent 6 and max width 8 the
wrapper emits the continuation line "      bbbb" of length 10 > 8, whose only
word "bbbb" has length 4 ≤ 8 — the overlong line is not a single overlong
word. -/
theorem c2_counterexample :
    ¬ (∀ l ∈ wrap_text_with_indent (strL ("aaaa bbbb")) 6 8,
        (((l.length : Int) ≤ 8) ∨ ∃ w, pySplit l = [w] ∧ 8 < (w.length : Int))) := by
  intro h
  have hmem : strL ("      bbbb") ∈ wrap_text_with_indent (strL ("aaaa bbbb")) 6 8 := by
    rw [show wrap_text_with_indent (strL ("aaaa bbbb")) 6 8
        = [strL ("aaaa"), strL ("      bbbb")] from by decide]
    simp
  rcases h _ hmem with h1 | ⟨w, hw, hlen⟩
  · exact absurd h1 (by decide)
  · have hps : pySplit (strL ("      bbbb")) = [strL ("bbbb")] := by decide
    rw [hps] at hw
    simp only [List.cons.injEq, and_true] at hw
    rw [← hw] at hlen
    exact absurd hlen (by decide)

/-- C2 (amended, as the counterexample forces): every line produced by
`wrap_text_with_indent` either has length ≤ max_width or carries at most one
word — a word moved to a fresh continuation line can exceed max_width together
with its indent even when the word alone does not, and the whole-text fallback
for wordless input can exceed max_width with no word at all. -/
theorem c2_amended_line_widths (text : Str) (il : Nat) (mw : Int) :
    ∀ l ∈ wrap_text_with_indent text il mw,
      (((l.length : Int) ≤ mw) ∨ (pySplit l).length ≤ 1) :=
  wrap_line_widths text il mw

/-- Witness for the amended C2 at a concrete input. -/
theorem c2_witness :
    (((strL ("aaaa")).length : Int) ≤ 8) ∨ (pySplit (strL ("aaaa"))).length ≤ 1 :=
  c2_amended_line_widths (strL ("aaaa bbbb")) 6 8 (strL ("aaaa")) (by decide)

/-- C3 as stated is false: the code stops scanning at any stripped line that
starts with `=` (here "=x", length 2), not only at a divider of at least ten
repeated `=`.  On the buffer ["", "=x", "✓ y"] the code returns true at "=x"
while the claim's divider rule would scan past it, hit the "✓" indicator and
return false. -/
theorem c3_counterexample :
    is_empty_test_file_section [strL (""), strL ("=x"), strL ("✓ y")] 0 = true ∧
    isEmptySpecC3 [strL (""), strL ("=x"), strL ("✓ y")] 0 = false := by
  exact ⟨by decide, by decide⟩

/-- C3 (amended, as the counterexample forces): scanning stops at the divider
rule exactly when a line whose stripped form starts with `=` (any length, not
necessarily all `=`) is met strictly after `start_idx` — provided every earlier
line in the window was skipped or counted (neither `=`-starting nor an
indicator) — and the classifier then returns true iff no content line was
counted so far. -/
theorem c3_amended_stop (lines : List Str) (s j : Nat)
    (h1 : s < j) (h2 : j < s + 15) (h3 : j < lines.length)
    (h4 : isSkipLine (stripAt lines j) = false)
    (h5 : startsWithL (strL ("=")) (stripAt lines j) = true)
    (h6 : ∀ k, s ≤ k → k < j → isSkipLine (stripAt lines k) = true ∨
        (startsWithL (strL ("=")) (stripAt lines k) = false ∧
         isIndicatorLine (stripAt lines k) = false)) :
    is_empty_test_file_section lines s = (countContent lines s j == 0) := by
  have hstop := isEmptyGo_stop lines s j h2 h3 h4 h5 h1 (j - s) s 0
    (Nat.le_refl _) (Nat.le_refl s) (by omega) h6
  unfold is_empty_test_file_section
  rw [hstop]
  simp

/-- Witness for the amended C3 at a concrete buffer. -/
theorem c3_witness :
    is_empty_test_file_section [strL ("abc"), strL ("=")] 0
      = (countContent [strL ("abc"), strL ("=")] 0 1 == 0) :=
  c3_amended_stop [strL ("abc"), strL ("=")] 0 1 (by decide) (by decide) (by decide)
    (by decide) (by decide)
    (fun k hk0 hk1 => by
      have hk : k = 0 := by omega
      subst hk
      exact Or.inr ⟨by decide, by decide⟩)

/-- C4: a section start followed within two lines by a divider line (repeated
`=`, length ≥ 10), with only skipped lines (blank or "initialized") before it,
is classified empty by `is_empty_test_file_section`. -/
theorem c4_divider_within_two (lines : List Str) (s j : Nat)
    (h1 : s < j) (h2 : j ≤ s + 2) (h3 : j < lines.length)
    (h4 : isDividerSpecLine (stripAt lines j) = true)
    (h5 : ∀ k, s ≤ k → k < j → isSkipLine (stripAt lines k) = true) :
    is_empty_test_file_section lines s = true := by
  obtain ⟨hskip, heq⟩ := divider_not_skip h4
  have hstop := isEmptyGo_stop lines s j (by omega) h3 hskip heq h1 (j - s) s 0
    (Nat.le_refl _) (Nat.le_refl s) (by omega)
    (fun k hk1 hk2 => Or.inl (h5 k hk1 hk2))
  unfold is_empty_test_file_section
  rw [hstop]
  have hcc : countContent lines s j = 0 := by
    unfold countContent
    apply countContentGo_all_skip
    intro k hk1 hk2
    exact h5 k hk1 (by omega)
  rw [hcc]
  rfl

/-- Witness for C4 at a concrete buffer. -/
theorem c4_witness :
    is_empty_test_file_section [strL (""), strL ("==========")] 0 = true :=
  c4_divider_within_two [strL (""), strL ("==========")] 0 1 (by decide) (by decide)
    (by decide) (by decide)
    (fun k hk0 hk1 => by
      have hk : k = 0 := by omega
      subst hk
      exact (by decide : isSkipLine (stripAt [strL (""), strL ("==========")] 0) = true))

/-- C5: if every status line of the input has reconstructed length at most the
terminal width, the driver's output equals the input with only the dim/reset
decoration applied to divider and header lines of empty sections
(`decorateOnly`, modelled from the spec). -/
theorem c5_short_identity (termW : Nat) (lines : List Str)
    (h : ∀ l ∈ lines, statusShort termW l = true) :
    process_test_output termW lines = decorateOnly lines := by
  unfold process_test_output decorateOnly
  exact processFrom_eq_decorFrom termW lines h lines.length 0 (by omega)

/-- Witness for C5 at a concrete buffer with a short status line. -/
theorem c5_witness :
    process_test_output 120 [strL ("✓ ok"), strL ("x")]
      = decorateOnly [strL ("✓ ok"), strL ("x")] :=
  c5_short_identity 120 [strL ("✓ ok"), strL ("x")] (by decide)

/-- C6: the driver drops no input line — the output has at least as many lines
as the input, and every input line appears in the output either unchanged, or
wrapped in the gray decoration, or expanded into its wrapped-line group, all
of whose lines appear in the output. -/
theorem c6_no_line_dropped (termW : Nat) (lines : List Str) :
    lines.length ≤ (process_test_output termW lines).length ∧
    ∀ i, i < lines.length →
      (lines.getD i [] ∈ process_test_output termW lines ∨
       grayLine (lines.getD i []) ∈ process_test_output termW lines ∨
       (∃ block, statusBlock termW (lines.getD i []) = some block ∧
         ∀ x ∈ block, x ∈ process_test_output termW lines)) := by
  constructor
  · have := processFrom_length_ge termW lines lines.length 0 (by omega)
    simpa [process_test_output] using this
  · intro i hi
    exact processFrom_covers termW lines lines.length 0 (by omega) i (Nat.zero_le i) hi

/-- Witness for C6 at a concrete buffer. -/
theorem c6_witness :
    ([strL ("hello")] : List Str).length ≤ (process_test_output 5 [strL ("hello")]).length ∧
    ((([strL ("hello")] : List Str).getD 0 [] ∈ process_test_output 5 [strL ("hello")] ∨
      grayLine (([strL ("hello")] : List Str).getD 0 []) ∈ process_test_output 5 [strL ("hello")] ∨
      (∃ block, statusBlock 5 (([strL ("hello")] : List Str).getD 0 []) = some block ∧
        ∀ x ∈ block, x ∈ process_test_output 5 [strL ("hello")]))) :=
  ⟨(c6_no_line_dropped 5 [strL ("hello")]).1,
   (c6_no_line_dropped 5 [strL ("hello")]).2 0 (by decide)⟩

/-- C7: on a line matching the status pattern whose reconstructed length
exceeds the terminal width, the driver computes `indent_width` as the length of
leading whitespace plus the marker length plus one, wraps the description with
that indent at width `TERM_WIDTH - indent_width`, emits the first wrapped line
behind the original indent and marker, emits the remaining wrapped lines
as-is, and advances the cursor by exactly one line. -/
theorem c7_wrap_branch (termW : Nat) (lines : List Str) (i : Nat)
    (ind st desc : Str)
    (hi : i < lines.length)
    (hm : statusMatch (lines.getD i []) = some (ind, st, desc))
    (hlen : termW < ind.length + st.length + 1 + desc.length) :
    processFrom termW lines i
      = (ind ++ st ++ ' ' ::
          (wrap_text_with_indent desc (ind.length + st.length + 1)
            ((termW : Int) - ((ind.length + st.length + 1 : Nat) : Int))).headD [])
        :: ((wrap_text_with_indent desc (ind.length + st.length + 1)
            ((termW : Int) - ((ind.length + st.length + 1 : Nat) : Int))).tail
          ++ processFrom termW lines (i + 1)) := by
  have hd := dimCond_false_of_statusMatch hm
  rw [processFrom_wrap termW lines i _ hi hd (statusBlock_of_match hm hlen)]
  rfl

/-- Witness for C7 at a concrete buffer: the wrap branch fires and the output
is the wrapped group followed by the rest of the stream. -/
theorem c7_witness :
    processFrom 3 [strL ("✓ aa bb")] 0 = [strL ("✓   aa"), strL ("  bb")] := by
  rw [c7_wrap_branch 3 [strL ("✓ aa bb")] 0 ([] : Str) (strL ("✓")) (strL ("aa bb"))
    (by decide) (by decide) (by decide)]
  decide

/-- C8: every exit path of the `__main__` wrapper — normal completion,
interrupt, downstream pipe closure — exits with code 0; no path exits with a
non-zero code. -/
theorem c8_exit_zero : ∀ p : ExitPath, mainExitCode p = 0 := by
  intro p
  cases p <;> rfl

/-- C9: when the driver wraps a status line, the emitted first line joins the
original indent, the marker and the first wrapped line with exactly one space
(whatever whitespace run the original carried after the marker), and every
line produced by the wrapper is its leading whitespace followed by its words
joined by single spaces — internal whitespace runs are collapsed and only the
word sequence is preserved. -/
theorem c9_whitespace_collapsed (termW : Nat) (lines : List Str) (i : Nat)
    (ind st desc : Str)
    (hi : i < lines.length)
    (hm : statusMatch (lines.getD i []) = some (ind, st, desc))
    (hlen : termW < ind.length + st.length + 1 + desc.length) :
    (∃ rest, processFrom termW lines i
        = (ind ++ st ++ ' ' ::
            (wrap_text_with_indent desc (ind.length + st.length + 1)
              ((termW : Int) - ((ind.length + st.length + 1 : Nat) : Int))).headD []) :: rest) ∧
    (∀ l ∈ wrap_text_with_indent desc (ind.length + st.length + 1)
        ((termW : Int) - ((ind.length + st.length + 1 : Nat) : Int)),
      l = l.takeWhile pyIsSpace ++ joinWords (pySplit l)) := by
  constructor
  · have hd := dimCond_false_of_statusMatch hm
    rw [processFrom_wrap termW lines i _ hi hd (statusBlock_of_match hm hlen)]
    exact ⟨_, rfl⟩
  · intro l hl
    refine wrap_lines_spaced desc (ind.length + st.length + 1)
      ((termW : Int) - ((ind.length + st.length + 1 : Nat) : Int)) ?_ l hl
    intro hle
    omega

/-- Witness for C9 at a concrete wrapped status line. -/
theorem c9_witness :
    (∃ rest, processFrom 3 [strL ("✓  aa  bb")] 0
        = (([] : Str) ++ strL ("✓") ++ ' ' ::
            (wrap_text_with_indent (strL ("aa  bb"))
              ((([] : Str)).length + (strL ("✓")).length + 1)
              ((3 : Int) - ((((([] : Str)).length + (strL ("✓")).length + 1 : Nat)) : Int))).headD [])
          :: rest) ∧
    (∀ l ∈ wrap_text_with_indent (strL ("aa  bb"))
        ((([] : Str)).length + (strL ("✓")).length + 1)
        ((3 : Int) - ((((([] : Str)).length + (strL ("✓")).length + 1 : Nat)) : Int)),
      l = l.takeWhile pyIsSpace ++ joinWords (pySplit l)) :=
  c9_whitespace_collapsed 3 [strL ("✓  aa  bb")] 0 ([] : Str) (strL ("✓")) (strL ("aa  bb"))
    (by decide) (by decide) (by decide)

/-- C10: for every input text, indent width and max width,
`wrap_text_with_indent` returns a list with at least one element, so the
driver's access `wrapped_lines[0]` is always in bounds. -/
theorem c10_wrap_nonempty (text : Str) (il : Nat) (mw : Int) :
    0 < (wrap_text_with_indent text il mw).length :=
  List.length_pos.2 (wrap_ne_nil text il mw)
